import Mathlib

/-!
Shallow embedding of the definition-indexing core of the obsidian-tooltip
plugin (src/managers/DefinitionManager.ts, src/managers/EditorManager.ts,
src/parsers/ConsolidatedParser.ts, src/managers/UIManager.ts).

JavaScript strings are modelled as Lean `String` (lists of characters,
positions are character indices), JS `Map` as an association list that
keeps insertion order (`Map.set` on an existing key updates in place,
on a fresh key appends; `Map.delete` removes the entry), and JS regular
expressions of the shape `\b<escaped literal>\b` with flags `gi` as an
explicit left-to-right scan with ASCII word-boundary tests.
-/

namespace NoteDefinitions

/-! ### JavaScript string primitives -/

/-- JS `String.prototype.trim` whitespace test (restricted to the ASCII
whitespace characters that occur in this code base's inputs). -/
def isWS (c : Char) : Bool :=
  c = ' ' || c = '\t' || c = '\n' || c = '\r'

def trimCharsLeft (cs : List Char) : List Char := cs.dropWhile isWS

def trimChars (cs : List Char) : List Char :=
  ((cs.dropWhile isWS).reverse.dropWhile isWS).reverse

/-- JS `s.trim()`. -/
def jsTrim (s : String) : String := ⟨trimChars s.data⟩

def startsWithChars : List Char → List Char → Bool
  | _, [] => true
  | [], _ :: _ => false
  | c :: cs, p :: ps => c = p && startsWithChars cs ps

/-- JS `s.startsWith(p)`. -/
def jsStartsWith (s p : String) : Bool := startsWithChars s.data p.data

/-- JS `s.endsWith(p)`. -/
def jsEndsWith (s p : String) : Bool := startsWithChars s.data.reverse p.data.reverse

/-- JS `s.length` (character count). -/
def strLen (s : String) : Nat := s.data.length

/-- JS `s.substring(n)` (drop the first `n` characters). -/
def jsDrop (s : String) (n : Nat) : String := ⟨s.data.drop n⟩

/-- Drop the last `n` characters (used for `s.substring(1, s.length - 1)`). -/
def jsDropRight (s : String) (n : Nat) : String := ⟨(s.data.reverse.drop n).reverse⟩

/-- JS `s.toLowerCase()` (ASCII case folding, which is also what the
regex `i` flag performs on the ASCII phrases of this plugin). -/
def jsToLower (s : String) : String := ⟨s.data.map Char.toLower⟩

def splitOnCharAux (sep : Char) : List Char → List Char → List String
  | [], acc => [⟨acc.reverse⟩]
  | c :: cs, acc =>
    if c = sep then ⟨acc.reverse⟩ :: splitOnCharAux sep cs []
    else splitOnCharAux sep cs (c :: acc)

/-- JS `s.split(sep)` for a single-character separator. -/
def splitOnChar (sep : Char) (s : String) : List String := splitOnCharAux sep s.data []

/-- JS `array.join(sep)`. -/
def joinSep (sep : String) : List String → String
  | [] => ""
  | [s] => s
  | s :: rest => s ++ sep ++ joinSep sep rest

/-! ### Data model (src/types.ts) -/

inductive SourceType
  | atomic
  | consolidated
deriving DecidableEq

/-- The `Definition` entity of src/types.ts (the optional `blockId`
field is never written nor read by the modelled code and is omitted). -/
structure Definition where
  phrase : String
  aliases : List String
  content : String
  sourceFile : String
  sourceType : SourceType
  lineNumber : Option Nat
deriving DecidableEq

/-- The `DefinitionCache` of src/types.ts: `definitions` is the
phrase-key map `byKey`, `fileIndex` the per-file map `byFile`.  The
`lastUpdate` timestamp plays no role in any claim and is omitted.
JS `Map`s are modelled as insertion-ordered association lists. -/
structure DefinitionCache where
  definitions : List (String × List Definition)
  fileIndex : List (String × List String)
deriving DecidableEq

/-! ### JS `Map` operations on association lists -/

def mapGet {α : Type} : List (String × α) → String → Option α
  | [], _ => none
  | e :: m, k => if e.1 = k then some e.2 else mapGet m k

/-- `if (!m.has(k)) m.set(k, []); m.get(k).push(v)` — push `v` onto the
list stored under `k`, creating the entry (at the end, in insertion
order) when absent. -/
def mapPush {α : Type} (m : List (String × List α)) (k : String) (v : α) :
    List (String × List α) :=
  if (mapGet m k).isSome then
    m.map (fun e => if e.1 = k then (e.1, e.2 ++ [v]) else e)
  else m ++ [(k, [v])]

/-! ### DefinitionManager cache operations
(src/managers/DefinitionManager.ts, `addToCache` lines 44-67,
`removeFromCache` lines 72-93) -/

def emptyCache : DefinitionCache := ⟨[], []⟩

/-- `DefinitionManager.addToCache`: index the definition under its
lowercased phrase and under every lowercased alias, and record the
phrase in the file index. -/
def addToCache (cache : DefinitionCache) (definition : Definition) : DefinitionCache :=
  let normalizedPhrase := jsToLower definition.phrase
  let defs1 := mapPush cache.definitions normalizedPhrase definition
  let defs2 := definition.aliases.foldl
    (fun m a => mapPush m (jsToLower a) definition) defs1
  let fileIndex := mapPush cache.fileIndex definition.sourceFile definition.phrase
  { definitions := defs2, fileIndex := fileIndex }

/-- `DefinitionManager.removeFromCache`: early-return when the file
index has no entry for the path (JS `if (!phrases) return`, and a
stored empty array is truthy so it does not early-return); otherwise
filter every key's list, delete keys whose lists became empty, and
delete the file-index entry. -/
def removeFromCache (cache : DefinitionCache) (filePath : String) : DefinitionCache :=
  match mapGet cache.fileIndex filePath with
  | none => cache
  | some _ =>
    let filtered := cache.definitions.map
      (fun e => (e.1, e.2.filter (fun d => d.sourceFile ≠ filePath)))
    let pruned := filtered.filter (fun e => ¬ e.2.isEmpty)
    { definitions := pruned,
      fileIndex := cache.fileIndex.filter (fun e => e.1 ≠ filePath) }

/-- A cache mutation: the two primitive operations of the claim C1. -/
inductive CacheOp
  | add (d : Definition)
  | remove (p : String)

def applyOp (c : DefinitionCache) : CacheOp → DefinitionCache
  | .add d => addToCache c d
  | .remove p => removeFromCache c p

/-- The cache state reached from the empty cache (a `clearCache`) by a
sequence of `addToCache` / `removeFromCache` operations. -/
def runOps (ops : List CacheOp) : DefinitionCache := ops.foldl applyOp emptyCache

/-! ### Lookup API (src/managers/DefinitionManager.ts lines 244-323) -/

/-- `DefinitionManager.getDefinition` (lines 244-259).  `contextFiles`
is `Option` because the JS parameter is optional; the JS guard
`contextFiles && contextFiles.length > 0` means an absent or empty
list disables the filter. -/
def getDefinition (cache : DefinitionCache) (phrase : String)
    (contextFiles : Option (List String)) : Option Definition :=
  match mapGet cache.definitions (jsToLower phrase) with
  | none => none
  | some definitions =>
    if definitions = [] then none
    else
      match contextFiles with
      | some cf =>
        if cf ≠ [] then (definitions.filter (fun d => cf.contains d.sourceFile)).head?
        else definitions.head?
      | none => definitions.head?

/-- `DefinitionManager.getDefinitions` (lines 264-278). -/
def getDefinitions (cache : DefinitionCache) (phrase : String)
    (contextFiles : Option (List String)) : List Definition :=
  match mapGet cache.definitions (jsToLower phrase) with
  | none => []
  | some definitions =>
    if definitions = [] then []
    else
      match contextFiles with
      | some cf =>
        if cf ≠ [] then definitions.filter (fun d => cf.contains d.sourceFile)
        else definitions
      | none => definitions

/-- The de-duplication key `` `${def.sourceFile}:${def.phrase}` `` of
`getAllDefinitions`. -/
def dedupKey (d : Definition) : String := d.sourceFile ++ ":" ++ d.phrase

/-- One iteration of the inner loop of `getAllDefinitions` (lines
283-306): state is (emitted list, seen keys). The seen-check happens
before the context filter, exactly as in the source. -/
def getAllStep (contextFiles : Option (List String))
    (st : List Definition × List String) (d : Definition) :
    List Definition × List String :=
  if st.2.contains (dedupKey d) then st
  else
    let seen := st.2 ++ [dedupKey d]
    let keep :=
      match contextFiles with
      | some cf => if cf ≠ [] then cf.contains d.sourceFile else true
      | none => true
    if keep then (st.1 ++ [d], seen) else (st.1, seen)

/-- `DefinitionManager.getAllDefinitions` (lines 283-306): iterate over
all values of the key map in insertion order, de-duplicating by
`(sourceFile, phrase)` string key. -/
def getAllDefinitions (cache : DefinitionCache)
    (contextFiles : Option (List String)) : List Definition :=
  (cache.definitions.foldl
    (fun st e => e.2.foldl (getAllStep contextFiles) st) ([], [])).1

/-! ### File-event scoping (src/managers/DefinitionManager.ts lines 453-527) -/

/-- `DefinitionManager.isInDefinitionFolder` (lines 501-507): an empty
configured folder string is falsy, otherwise a plain
`filePath.startsWith(folder)` with no path-separator check. -/
def isInDefinitionFolder (definitionFolder : String) (filePath : String) : Bool :=
  if definitionFolder = "" then false
  else jsStartsWith filePath definitionFolder

/-- Cache effect of `DefinitionManager.onFileDelete` (lines 472-479). -/
def onFileDelete (definitionFolder : String) (cache : DefinitionCache)
    (filePath : String) : DefinitionCache :=
  if isInDefinitionFolder definitionFolder filePath then removeFromCache cache filePath
  else cache

/-- Scope guard of `DefinitionManager.onFileChange` (lines 453-467): the
debounced reload is scheduled exactly when this is true. -/
def onFileChangeActs (definitionFolder : String) (filePath : String) : Bool :=
  isInDefinitionFolder definitionFolder filePath

/-- Scope guard of `DefinitionManager.onFileRename` (lines 484-496): the
handler acts unless both the old and the new path are out of scope. -/
def onFileRenameActs (definitionFolder : String) (newPath oldPath : String) : Bool :=
  isInDefinitionFolder definitionFolder oldPath ||
    isInDefinitionFolder definitionFolder newPath

/-! ### Phrase scanner (src/managers/EditorManager.ts `findPhrases`,
lines 87-117) -/

/-- JS regex `\w`: ASCII letters, digits, underscore. -/
def isWordChar (c : Char) : Bool :=
  ('a' ≤ c && c ≤ 'z') || ('A' ≤ c && c ≤ 'Z') || ('0' ≤ c && c ≤ '9') || c = '_'

def isWordAt (text : List Char) (i : Nat) : Bool :=
  match text[i]? with
  | some c => isWordChar c
  | none => false

/-- JS regex `\b` at character position `i` of `text`: the word-char
status changes between position `i - 1` and position `i` (positions
outside the string count as non-word). -/
def boundaryAt (text : List Char) (i : Nat) : Bool :=
  (match i with
   | 0 => false
   | j + 1 => isWordAt text j) != isWordAt text i

def lowerChars (cs : List Char) : List Char := cs.map Char.toLower

def sliceChars (text : List Char) (i len : Nat) : List Char := (text.drop i).take len

/-- The regex `\b<phrase>\b` (with the phrase regex-escaped, hence a
literal) matches `text` at position `i`, case-insensitively. -/
def matchAt (text phl : List Char) (i : Nat) : Bool :=
  decide (i + phl.length ≤ text.length) &&
  (lowerChars (sliceChars text i phl.length) == lowerChars phl) &&
  boundaryAt text i && boundaryAt text (i + phl.length)

/-- A `{phrase, from, to}` record of `findPhrases`; the source field
names `from`/`to` are Lean keywords, rendered `mFrom`/`mTo`. `phrase`
holds `match[0]`, the matched text in its original case. -/
structure PhraseMatch where
  phrase : String
  mFrom : Nat
  mTo : Nat
deriving DecidableEq

/-- The overlap test of `findPhrases` (lines 104-107): the candidate
span `[f, t)` is rejected iff its start lies in `[m.from, m.to)` or its
end lies in `(m.from, m.to]` for some already-accepted `m`. -/
def overlapsAny (ms : List PhraseMatch) (f t : Nat) : Bool :=
  ms.any (fun m =>
    (decide (f ≥ m.mFrom) && decide (f < m.mTo)) ||
    (decide (t > m.mFrom) && decide (t ≤ m.mTo)))

/-- The `while ((match = regex.exec(text)) !== null)` loop for one
phrase (lines 98-112): scan left to right from position `i`; on a match
the regex's `lastIndex` jumps to the end of the match whether or not
the match was accepted, so scanning resumes there. `fuel` bounds the
number of loop steps; `text.length + 1` steps always suffice for a
non-empty phrase because every step advances the position (for an empty
phrase the JS loop would not terminate at a matching position). -/
def scanPhrase (text phl : List Char) : Nat → Nat → List PhraseMatch → List PhraseMatch
  | 0, _, acc => acc
  | fuel + 1, i, acc =>
    if i + phl.length ≤ text.length then
      if matchAt text phl i then
        let t := i + phl.length
        let acc' :=
          if overlapsAny acc i t then acc
          else acc ++ [⟨⟨sliceChars text i phl.length⟩, i, t⟩]
        scanPhrase text phl fuel t acc'
      else scanPhrase text phl fuel (i + 1) acc
    else acc

/-- The comparator `(a, b) => b.length - a.length`: descending phrase
length, stable on ties.  Mathlib's `insertionSort` with a total
preorder is stable, hence produces the same list as JS `sort`. -/
def lenDesc (a b : String) : Prop := strLen b ≤ strLen a

instance : DecidableRel lenDesc := fun a b => Nat.decLe _ _

/-- The comparator `(a, b) => a.from - b.from`: ascending start offset. -/
def fromAsc (a b : PhraseMatch) : Prop := a.mFrom ≤ b.mFrom

instance : DecidableRel fromAsc := fun a b => Nat.decLe _ _

/-- `EditorManager.findPhrases` (lines 87-117): sort the phrases by
descending length, scan each in order sharing one accepted-match list,
then sort the result by ascending start offset. -/
def findPhrases (text : String) (phrases : List String) : List PhraseMatch :=
  let sortedPhrases := List.insertionSort lenDesc phrases
  let tl := text.data
  let ms := sortedPhrases.foldl
    (fun acc ph => scanPhrase tl ph.data (tl.length + 1) 0 acc) []
  List.insertionSort fromAsc ms

/-! ### Consolidated parser (src/parsers/ConsolidatedParser.ts) -/

inductive DividerPattern
  | hyphens
  | both
deriving DecidableEq

/-- `ConsolidatedParser.isDivider` (lines 119-127), applied to the
already-trimmed line. -/
def isDivider (dp : DividerPattern) (line : String) : Bool :=
  if line = "---" then true
  else
    match dp with
    | .both => line = "___"
    | .hyphens => false

/-- The frontmatter-closing scan of `parse` (lines 20-27): from index 1,
advance while the line is not `---`; the loop then steps once past the
closing line (or past the end when unterminated). `fuel` bounds the
scan; `lines.length` always suffices. -/
def fmClose (lines : List String) : Nat → Nat → Nat
  | 0, i => i + 1
  | fuel + 1, i =>
    if i < lines.length then
      if jsTrim (lines.getD i "") = "---" then i + 1
      else fmClose lines fuel (i + 1)
    else i + 1

/-- Index at which the main scan of `parse` starts: past an optional
leading frontmatter block. -/
def skipFrontmatter (lines : List String) : Nat :=
  match lines with
  | [] => 0
  | l0 :: _ => if jsTrim l0 = "---" then fmClose lines lines.length 1 else 0

/-- The content loop of `parseBlock` (lines 76-92): collect raw lines
until a divider (consumed), the next `# ` header (not consumed) or the
end of file; returns the collected lines and the end index. -/
def contentScan (dp : DividerPattern) (lines : List String) :
    Nat → Nat → List String × Nat
  | 0, i => ([], i)
  | fuel + 1, i =>
    if i < lines.length then
      let line := lines.getD i ""
      if isDivider dp (jsTrim line) then ([], i + 1)
      else if jsStartsWith (jsTrim line) "# " && decide (strLen (jsTrim line) > 2) then
        ([], i)
      else
        let r := contentScan dp lines fuel (i + 1)
        (line :: r.1, r.2)
    else ([], i)

def isBlankLine (l : String) : Bool := jsTrim l = ""

/-- Lines 95-100 of `parseBlock`: strip fully-blank lines from both ends
of the content. -/
def trimBlankEnds (ls : List String) : List String :=
  ((ls.dropWhile isBlankLine).reverse.dropWhile isBlankLine).reverse

/-- `ConsolidatedParser.parseBlock` (lines 48-114): header phrase, an
optional `*alias, alias*` line, then content to the next divider or
header.  Returns the parsed definition (none for an empty phrase) and
the index at which the outer scan resumes. -/
def parseBlock (dp : DividerPattern) (lines : List String) (startIndex : Nat)
    (filePath : String) : Option Definition × Nat :=
  let phraseLine := jsTrim (lines.getD startIndex "")
  let phrase := jsTrim (jsDrop phraseLine 2)
  if phrase = "" then (none, startIndex + 1)
  else
    let i0 := startIndex + 1
    let st :=
      if i0 < lines.length then
        let nextLine := jsTrim (lines.getD i0 "")
        if jsStartsWith nextLine "*" && jsEndsWith nextLine "*" &&
            decide (strLen nextLine > 2) then
          let aliasText := jsDropRight (jsDrop nextLine 1) 1
          (((splitOnChar ',' aliasText).map jsTrim).filter
            (fun a => decide (0 < strLen a)), i0 + 1)
        else (([] : List String), i0)
      else (([] : List String), i0)
    let sc := contentScan dp lines lines.length st.2
    let contentLines := trimBlankEnds sc.1
    (some { phrase := phrase, aliases := st.1, content := joinSep "\n" contentLines,
            sourceFile := filePath, sourceType := .consolidated,
            lineNumber := some (startIndex + 1) }, sc.2)

/-- The scan loop of `ConsolidatedParser.parse` (lines 17-40) after the
frontmatter skip.  `fuel` bounds the number of loop iterations; every
iteration strictly advances the index, so `lines.length + 1` iterations
always suffice. -/
def parseLoop (dp : DividerPattern) (lines : List String) (filePath : String) :
    Nat → Nat → List Definition
  | 0, _ => []
  | fuel + 1, i =>
    if i < lines.length then
      let line := jsTrim (lines.getD i "")
      if jsStartsWith line "# " && decide (strLen line > 2) then
        let r := parseBlock dp lines i filePath
        (match r.1 with
         | some d => [d]
         | none => []) ++ parseLoop dp lines filePath fuel r.2
      else parseLoop dp lines filePath fuel (i + 1)
    else []

/-- `ConsolidatedParser.parse` (lines 13-43). -/
def parseConsolidated (dp : DividerPattern) (content : String) (filePath : String) :
    List Definition :=
  let lines := splitOnChar '\n' content
  parseLoop dp lines filePath (lines.length + 1) (skipFrontmatter lines)

/-! ### Write paths (src/managers/UIManager.ts)

Each write path is modelled by the sequence of vault mutations it
performs, with the full replacement content computed purely; a thrown
error is an `Except.error` and carries no mutations, because in the
source the throw happens before any mutation call. `frontmatterWrite`
stands for the host API `fileManager.processFrontMatter`, a write that
commits on its own before the function continues. -/

inductive VaultWrite
  | modifyContent (newContent : String)
  | frontmatterWrite
  | renameFile (newName : String)
deriving DecidableEq

/-- `UIManager.appendToConsolidatedFile` (lines 184-209): build the new
block in memory and commit `existingContent + newBlock` in one
`vault.modify`. -/
def appendToConsolidatedFile (existingContent phrase : String)
    (aliases : List String) (content : String) : List VaultWrite :=
  let newBlock :=
    "\n# " ++ phrase ++ "\n" ++
    (if aliases.isEmpty then "" else "\n*" ++ joinSep ", " aliases ++ "*\n") ++
    "\n" ++ content ++ "\n\n---\n"
  [VaultWrite.modifyContent (existingContent ++ newBlock)]

/-- The block-end scan shared by the consolidated update/delete paths
(lines 567-574 and 516-523): from `startLine + 1`, advance to the next
`---`, `___` (both recognized regardless of the divider setting) or
`# ` header, or the end of file. -/
def findBlockEnd (lines : List String) : Nat → Nat → Nat
  | 0, e => e
  | fuel + 1, e =>
    if e < lines.length then
      let line := jsTrim (lines.getD e "")
      if line = "---" || line = "___" ||
          (jsStartsWith line "# " && decide (strLen line > 2)) then e
      else findBlockEnd lines fuel (e + 1)
    else e

/-- `UIManager.updateConsolidatedDefinition` (lines 550-593): throws
(before any write) when `definition.lineNumber` is falsy, otherwise
splices the rebuilt block into the line list and commits in a single
`vault.modify`. -/
def updateConsolidatedDefinition (content : String) (definition : Definition)
    (newPhrase : String) (newAliases : List String) (newContent : String) :
    Except String (List VaultWrite) :=
  let lines := splitOnChar '\n' content
  match definition.lineNumber with
  | none => .error "Line number not found"
  | some ln =>
    if ln = 0 then .error "Line number not found"
    else
      let startLine := ln - 1
      let endLine := findBlockEnd lines lines.length (startLine + 1)
      let newBlock :=
        "# " ++ newPhrase ++
        (if newAliases.isEmpty then ""
         else "\n\n*" ++ joinSep ", " newAliases ++ "*") ++
        "\n\n" ++ newContent
      .ok [VaultWrite.modifyContent
        (joinSep "\n" (lines.take startLine ++ [newBlock] ++ lines.drop endLine))]

/-- `UIManager.deleteConsolidatedDefinition` (lines 505-537): same
structure, additionally consuming a trailing divider line, committing
the shortened document in a single `vault.modify`. -/
def deleteConsolidatedDefinition (content : String) (definition : Definition) :
    Except String (List VaultWrite) :=
  let lines := splitOnChar '\n' content
  match definition.lineNumber with
  | none => .error "Line number not found"
  | some ln =>
    if ln = 0 then .error "Line number not found"
    else
      let startLine := ln - 1
      let e1 := findBlockEnd lines lines.length (startLine + 1)
      let endLine :=
        if e1 < lines.length &&
            (jsTrim (lines.getD e1 "") = "---" || jsTrim (lines.getD e1 "") = "___") then
          e1 + 1
        else e1
      .ok [VaultWrite.modifyContent
        (joinSep "\n" (lines.take startLine ++ lines.drop endLine))]

/-- `UIManager.updateAtomicDefinition` (lines 598-640): first a
`processFrontMatter` write (aliases), then a read of the resulting
content (the `content` parameter here), then a second write
(`vault.modify`) replacing everything after the frontmatter, then a
`renameFile` when the phrase changed — three separate mutations, not
one. -/
def updateAtomicDefinition (content : String) (definition : Definition)
    (newPhrase : String) (newAliases : List String) (newContent : String) :
    List VaultWrite :=
  let lines := splitOnChar '\n' content
  let contentStart :=
    if jsTrim (lines.getD 0 "") = "---" then
      match fmCloseIdx lines lines.length 1 with
      | some j => j + 1
      | none => 0
    else 0
  let frontmatterLines := lines.take contentStart
  let newDoc := joinSep "\n" (frontmatterLines ++ ["", newContent])
  [VaultWrite.frontmatterWrite] ++ [VaultWrite.modifyContent newDoc] ++
    (if newPhrase = definition.phrase then []
     else [VaultWrite.renameFile (newPhrase ++ ".md")])
  where fmCloseIdx (lines : List String) : Nat → Nat → Option Nat
    | 0, _ => none
    | fuel + 1, i =>
      if i < lines.length then
        if jsTrim (lines.getD i "") = "---" then some i
        else fmCloseIdx lines fuel (i + 1)
      else none

/-! ### Relations and instances used by the scanner theorems -/

/-- Two spans are disjoint as half-open intervals: no text position is
covered by both. -/
def SpanDisj (a b : PhraseMatch) : Prop := a.mTo ≤ b.mFrom ∨ b.mTo ≤ a.mFrom

/-- A returned match is well formed for text `text` and phrase list `P`:
its span lies inside the text and the covered substring, lowercased,
is the lowercased form of some element of `P`. -/
def MatchOK (text : List Char) (P : List String) (m : PhraseMatch) : Prop :=
  m.mFrom ≤ m.mTo ∧ m.mTo ≤ text.length ∧
  ∃ p ∈ P, m.mTo = m.mFrom + p.data.length ∧
    lowerChars (sliceChars text m.mFrom (m.mTo - m.mFrom)) = lowerChars p.data

instance : IsTotal PhraseMatch fromAsc := ⟨fun a b => Nat.le_total a.mFrom b.mFrom⟩

instance : IsTrans PhraseMatch fromAsc := ⟨fun _ _ _ => Nat.le_trans⟩

instance : IsTotal String lenDesc := ⟨fun a b => (Nat.le_total (strLen b) (strLen a)).imp id id⟩

instance : IsTrans String lenDesc := ⟨fun _ _ _ h h' => Nat.le_trans h' h⟩

/-- The cache consistency invariant maintained by `addToCache` and
`removeFromCache` (§3 of the spec): no key stores an empty list, every
cached definition's source file has a file-index entry, every phrase
recorded in the file index leads back to a matching definition under
its lowercased key, and both maps have pairwise-distinct keys (as JS
`Map`s do). -/
def CacheInv (c : DefinitionCache) : Prop :=
  (∀ e ∈ c.definitions, e.2 ≠ []) ∧
  (∀ e ∈ c.definitions, ∀ d ∈ e.2, (mapGet c.fileIndex d.sourceFile).isSome = true) ∧
  (∀ f ∈ c.fileIndex, ∀ q ∈ f.2, ∃ l, mapGet c.definitions (jsToLower q) = some l ∧
     ∃ d ∈ l, d.phrase = q ∧ d.sourceFile = f.1) ∧
  (c.definitions.map Prod.fst).Nodup ∧
  (c.fileIndex.map Prod.fst).Nodup

/-- Boolean well-formedness of one parsed definition, used to state the
parser safety claim: non-empty phrase, correct source file and type,
and a 1-indexed line number within the file. -/
def defWellFormed (filePath : String) (numLines : Nat) (d : Definition) : Bool :=
  (!(d.phrase = "")) && (d.sourceFile = filePath) &&
  (d.sourceType = SourceType.consolidated) &&
  (match d.lineNumber with
   | some k => decide (1 ≤ k) && decide (k ≤ numLines)
   | none => false)

/-! ### Concrete instances used by the claims -/

/-- The ten-line consolidated input of claim C6 / spec §8. -/
def exInput : String :=
  "# Widget\n*gadget*\n\nA small mechanical device.\n\n---\n\n# Gizmo\n\nAnother small device."

def exWidget : Definition :=
  ⟨"Widget", ["gadget"], "A small mechanical device.", "defs/test.md", .consolidated, some 1⟩

/-- The second block as the code parses it: its `# Gizmo` header is the
8th line of the input. -/
def exGizmo : Definition :=
  ⟨"Gizmo", [], "Another small device.", "defs/test.md", .consolidated, some 8⟩

/-- The second block as claim C6 states it, with `lineNumber` 9. -/
def exGizmoClaimed : Definition :=
  ⟨"Gizmo", [], "Another small device.", "defs/test.md", .consolidated, some 9⟩

/-- The single definition of the claim C4 context-filtering example,
stored in file `a.md`. -/
def exTermDef : Definition := ⟨"term", [], "body", "a.md", .consolidated, some 1⟩

def exTermCache : DefinitionCache := addToCache emptyCache exTermDef

/-- The claim C5 alias fan-out example. -/
def exCpuDef : Definition :=
  ⟨"CPU", ["Central Processing Unit"], "brain of the computer", "defs/hw.md",
   .consolidated, some 1⟩

def exCpuCache : DefinitionCache := addToCache emptyCache exCpuDef

/-- Two distinct definitions sharing `(sourceFile, phrase)` — as parsed
from one file containing two `# Foo` blocks with different bodies. -/
def exDup1 : Definition := ⟨"Foo", [], "one", "f.md", .consolidated, some 1⟩

def exDup2 : Definition := ⟨"Foo", [], "two", "f.md", .consolidated, some 5⟩

def exDupCache : DefinitionCache := addToCache (addToCache emptyCache exDup1) exDup2

/-- An atomic definition file and entry for the claim C9 write-path
example. -/
def exAtomicContent : String := "---\ndef-type: atomic\n---\n\nold body"

def exAtomicDef : Definition := ⟨"Term", [], "old body", "defs/Term.md", .atomic, none⟩

/-! ## Theorems -/

/-- `getDefinition` with no context is the head of the stored list. -/
theorem getDefinition_no_context (c : DefinitionCache) (p : String) :
    getDefinition c p none = ((mapGet c.definitions (jsToLower p)).getD []).head? := by
  unfold getDefinition
  cases h : mapGet c.definitions (jsToLower p) with
  | none => simp
  | some defs => by_cases hd : defs = [] <;> simp [hd]

/-- `getDefinition` with a non-empty context list is the head of the
context-filtered stored list. -/
theorem getDefinition_with_context (c : DefinitionCache) (p : String)
    (cf : List String) (hcf : cf ≠ []) :
    getDefinition c p (some cf) =
      (((mapGet c.definitions (jsToLower p)).getD []).filter
        (fun d => cf.contains d.sourceFile)).head? := by
  unfold getDefinition
  cases h : mapGet c.definitions (jsToLower p) with
  | none => simp
  | some defs => by_cases hd : defs = [] <;> simp [hd, hcf]

/-- C4: `getDefinition(phrase)` with no context returns the first stored
entry under the lowercased key (or none when the key is absent);
with a non-empty `contextFiles` list it returns the first stored entry
whose `sourceFile` is in the list, and none when nothing survives the
filter.  In particular, a definition stored only for `a.md` is not
returned under context `["b.md"]` but is returned under `["a.md"]` and
with no filter. -/
theorem C4_getDefinition_context_filter :
    (∀ c p, getDefinition c p none =
        ((mapGet c.definitions (jsToLower p)).getD []).head?) ∧
    (∀ c p cf, cf ≠ [] →
        getDefinition c p (some cf) =
          (((mapGet c.definitions (jsToLower p)).getD []).filter
            (fun d => cf.contains d.sourceFile)).head?) ∧
    (getDefinition exTermCache "term" (some ["b.md"]) = none ∧
     getDefinition exTermCache "term" (some ["a.md"]) = some exTermDef ∧
     getDefinition exTermCache "term" none = some exTermDef) :=
  ⟨getDefinition_no_context, getDefinition_with_context, by decide⟩

/-- Witness for C4 at a concrete cache, key and context. -/
theorem C4_witness :
    getDefinition exTermCache "term" (some ["a.md"]) =
      (((mapGet exTermCache.definitions (jsToLower "term")).getD []).filter
        (fun d => ["a.md"].contains d.sourceFile)).head? :=
  C4_getDefinition_context_filter.2.1 exTermCache "term" ["a.md"] (by decide)

/-- C10: the file-event handlers consider a path in scope iff the
configured folder is non-empty and the path starts (as a character
string, with no path-separator check) with the folder, so `defs2/a.md`
is in scope for folder `defs`, and nothing is in scope for the empty
folder. -/
theorem C10_definition_folder_scope :
    (∀ folder path, isInDefinitionFolder folder path =
        (decide (folder ≠ "") && jsStartsWith path folder)) ∧
    isInDefinitionFolder "defs" "defs2/a.md" = true ∧
    (∀ path, isInDefinitionFolder "" path = false) ∧
    (∀ folder path, onFileChangeActs folder path = isInDefinitionFolder folder path) ∧
    (∀ folder newPath oldPath, onFileRenameActs folder newPath oldPath =
        (isInDefinitionFolder folder oldPath || isInDefinitionFolder folder newPath)) ∧
    (∀ folder c path, isInDefinitionFolder folder path = false →
        onFileDelete folder c path = c) ∧
    (∀ folder c path, isInDefinitionFolder folder path = true →
        onFileDelete folder c path = removeFromCache c path) := by
  refine ⟨?_, by decide, ?_, fun _ _ => rfl, fun _ _ _ => rfl, ?_, ?_⟩
  · intro folder path
    unfold isInDefinitionFolder
    by_cases h : folder = "" <;> simp [h]
  · intro path
    simp [isInDefinitionFolder]
  · intro folder c path h
    simp [onFileDelete, h]
  · intro folder c path h
    simp [onFileDelete, h]

/-- Witness for C10: an out-of-scope delete leaves the cache unchanged. -/
theorem C10_witness : onFileDelete "defs" exDupCache "notes/a.md" = exDupCache :=
  C10_definition_folder_scope.2.2.2.2.2.1 "defs" exDupCache "notes/a.md" (by decide)

/-- C3 counterexample: with candidate set `{"y z w", "x y", "x"}` on the
text `"x y z w"`, the phrase `"x"` is a word-boundary substring of
`"x y"` and both match at position 0, yet the scanner returns the
shorter `"x"` there and not `"x y"` (whose candidate span overlapped
the accepted `"y z w"` span and was discarded), refuting the claim that
the longer phrase always wins at a shared location. -/
theorem C3_counterexample :
    findPhrases "x y z w" ["y z w", "x y", "x"] =
      [⟨"x", 0, 1⟩, ⟨"y z w", 2, 7⟩] ∧
    (⟨"x", 0, 1⟩ : PhraseMatch) ∈ findPhrases "x y z w" ["y z w", "x y", "x"] ∧
    (⟨"x y", 0, 3⟩ : PhraseMatch) ∉ findPhrases "x y z w" ["y z w", "x y", "x"] := by
  decide

/-- C3 amended: when the candidate set is exactly the two phrases, the
longer phrase wins at the shared location regardless of input order: on
`"see foo bar now"` with `{"foo", "foo bar"}` the scanner returns
exactly one match spanning `"foo bar"`, in either input order. -/
theorem C3_longest_match_example :
    findPhrases "see foo bar now" ["foo", "foo bar"] = [⟨"foo bar", 4, 11⟩] ∧
    findPhrases "see foo bar now" ["foo bar", "foo"] = [⟨"foo bar", 4, 11⟩] := by
  decide

/-- C6 counterexample: on the literal ten-line input, the `# Gizmo`
header is the 8th line, so the parser does not produce the claimed
`lineNumber` 9 for the second definition. -/
theorem C6_counterexample :
    parseConsolidated DividerPattern.hyphens exInput "defs/test.md" ≠
      [exWidget, exGizmoClaimed] := by
  decide

/-- C6 amended: the ten-line input parses to exactly the two
definitions `Widget` (aliases `["gadget"]`, content
`"A small mechanical device."`, line 1) and `Gizmo` (no aliases,
content `"Another small device."`, line 8 — the 1-indexed line of its
`# ` header). -/
theorem C6_consolidated_parse_example :
    parseConsolidated DividerPattern.hyphens exInput "defs/test.md" =
      [exWidget, exGizmo] := by
  decide

/-- C7 counterexample: on `"ab!c"` with phrases `{"ab!", "c"}`, the
candidate `"c"` at span `[3,4)` merely touches the accepted span
`[0,3)` (it starts exactly where the accepted span ends) and is kept,
refuting the claim that touching candidates are discarded. -/
theorem C7_counterexample :
    findPhrases "ab!c" ["ab!", "c"] = [⟨"ab!", 0, 3⟩, ⟨"c", 3, 4⟩] ∧
    (⟨"c", 3, 4⟩ : PhraseMatch) ∈ findPhrases "ab!c" ["ab!", "c"] := by
  decide

/-- C7 amended: a later candidate span `[f, t)` is discarded iff its
start lies in `[m.from, m.to)` or its end lies in `(m.from, m.to]` for
some already-accepted `m`; candidates that are disjoint from every
accepted span, including ones that merely touch one, are kept; and on a
match the scan resumes at the end of the candidate span whether or not
it was accepted, so no offset inside it is retried. -/
theorem C7_overlap_discard :
    ∀ (acc : List PhraseMatch) (f t : Nat),
      (overlapsAny acc f t = true ↔
        ∃ m ∈ acc, (m.mFrom ≤ f ∧ f < m.mTo) ∨ (m.mFrom < t ∧ t ≤ m.mTo)) ∧
      (f < t → (∀ m ∈ acc, t ≤ m.mFrom ∨ m.mTo ≤ f) → overlapsAny acc f t = false) ∧
      (∀ (text phl : List Char) (fuel i : Nat),
        i + phl.length ≤ text.length → matchAt text phl i = true →
        scanPhrase text phl (fuel + 1) i acc =
          scanPhrase text phl fuel (i + phl.length)
            (if overlapsAny acc i (i + phl.length) then acc
             else acc ++ [⟨⟨sliceChars text i phl.length⟩, i, i + phl.length⟩])) := by
  intro acc f t
  have hiff : overlapsAny acc f t = true ↔
      ∃ m ∈ acc, (m.mFrom ≤ f ∧ f < m.mTo) ∨ (m.mFrom < t ∧ t ≤ m.mTo) := by
    simp [overlapsAny, List.any_eq_true]
  refine ⟨hiff, ?_, ?_⟩
  · intro hft h
    rw [Bool.eq_false_iff]
    intro hT
    obtain ⟨m, hm, hcase⟩ := hiff.1 hT
    rcases h m hm with h' | h' <;> rcases hcase with ⟨h1, h2⟩ | ⟨h1, h2⟩ <;> omega
  · intro text phl fuel i hlen hmatch
    simp [scanPhrase, hlen, hmatch]

/-- Witness for C7 at the concrete state of the `"ab!c"` example: the
touching candidate `[3,4)` is not flagged as overlapping. -/
theorem C7_witness : overlapsAny [⟨"ab!", 0, 3⟩] 3 4 = false :=
  (C7_overlap_discard [⟨"ab!", 0, 3⟩] 3 4).2.1 (by decide) (by decide)

/-- C9 counterexample: `updateAtomicDefinition` performs three separate
mutations — a frontmatter write, then a content write, then a rename
when the phrase changed — so the replacement is not committed in a
single write: a failure after the first write leaves the document's
frontmatter modified but its body unchanged. -/
theorem C9_counterexample :
    updateAtomicDefinition exAtomicContent exAtomicDef "NewTerm" ["nt"] "new body" =
      [VaultWrite.frontmatterWrite,
       VaultWrite.modifyContent "---\ndef-type: atomic\n---\n\nnew body",
       VaultWrite.renameFile "NewTerm.md"] ∧
    ¬ (updateAtomicDefinition exAtomicContent exAtomicDef "NewTerm" ["nt"] "new body").length ≤ 1 := by
  decide

/-- C9 amended: the consolidated write paths (append, update, delete)
compute the full replacement content in memory and commit it in exactly
one `vault.modify`, and when they fail (missing line number) they throw
before performing any write; the atomic update path instead performs at
least two separate writes. -/
theorem C9_single_write_commit :
    (∀ ec p al ct, ∃ doc,
        appendToConsolidatedFile ec p al ct = [VaultWrite.modifyContent doc]) ∧
    (∀ c d np na nc,
        (∃ msg, updateConsolidatedDefinition c d np na nc = .error msg) ∨
        (∃ doc, updateConsolidatedDefinition c d np na nc =
          .ok [VaultWrite.modifyContent doc])) ∧
    (∀ c d,
        (∃ msg, deleteConsolidatedDefinition c d = .error msg) ∨
        (∃ doc, deleteConsolidatedDefinition c d =
          .ok [VaultWrite.modifyContent doc])) ∧
    (∀ c d np na nc, 2 ≤ (updateAtomicDefinition c d np na nc).length) := by
  refine ⟨fun ec p al ct => ⟨_, rfl⟩, ?_, ?_, ?_⟩
  · intro c d np na nc
    unfold updateConsolidatedDefinition
    cases d.lineNumber with
    | none => exact Or.inl ⟨_, rfl⟩
    | some ln =>
      by_cases h0 : ln = 0
      · exact Or.inl ⟨_, by dsimp only; rw [if_pos h0]⟩
      · exact Or.inr ⟨_, by dsimp only; rw [if_neg h0]⟩
  · intro c d
    unfold deleteConsolidatedDefinition
    cases d.lineNumber with
    | none => exact Or.inl ⟨_, rfl⟩
    | some ln =>
      by_cases h0 : ln = 0
      · exact Or.inl ⟨_, by dsimp only; rw [if_pos h0]⟩
      · exact Or.inr ⟨_, by dsimp only; rw [if_neg h0]⟩
  · intro c d np na nc
    unfold updateAtomicDefinition
    simp

/-- Characterization of the accepted-span overlap test. -/
theorem overlapsAny_iff (acc : List PhraseMatch) (f t : Nat) :
    overlapsAny acc f t = true ↔
      ∃ m ∈ acc, (m.mFrom ≤ f ∧ f < m.mTo) ∨ (m.mFrom < t ∧ t ≤ m.mTo) := by
  simp [overlapsAny, List.any_eq_true]

/-- Facts extracted from a successful regex match at position `i`. -/
theorem matchAt_spec (text phl : List Char) (i : Nat) (h : matchAt text phl i = true) :
    i + phl.length ≤ text.length ∧
    lowerChars (sliceChars text i phl.length) = lowerChars phl := by
  unfold matchAt at h
  simp only [Bool.and_eq_true, decide_eq_true_eq, beq_iff_eq] at h
  exact ⟨h.1.1.1, h.1.1.2⟩

/-- Scan invariant: scanning one phrase preserves well-formedness of
all accepted matches, the lower bound on accepted span lengths, and
pairwise disjointness — the overlap test rejects any candidate that
would share a position with an accepted span, because a candidate no
longer than every accepted span cannot strictly contain one. -/
theorem scanPhrase_inv (text : List Char) (P : List String) (p : String) (hp : p ∈ P) :
    ∀ (fuel i : Nat) (acc : List PhraseMatch),
      (∀ m ∈ acc, MatchOK text P m ∧ p.data.length ≤ m.mTo - m.mFrom) →
      acc.Pairwise SpanDisj →
      (∀ m ∈ scanPhrase text p.data fuel i acc,
        MatchOK text P m ∧ p.data.length ≤ m.mTo - m.mFrom) ∧
      (scanPhrase text p.data fuel i acc).Pairwise SpanDisj := by
  intro fuel
  induction fuel with
  | zero =>
    intro i acc hacc hpw
    simpa only [scanPhrase] using ⟨hacc, hpw⟩
  | succ n ih =>
    intro i acc hacc hpw
    simp only [scanPhrase]
    by_cases hin : i + p.data.length ≤ text.length
    · rw [if_pos hin]
      by_cases hm : matchAt text p.data i = true
      · rw [if_pos hm]
        by_cases hov : overlapsAny acc i (i + p.data.length) = true
        · rw [if_pos hov]
          exact ih _ acc hacc hpw
        · rw [if_neg hov]
          have hovf : overlapsAny acc i (i + p.data.length) = false :=
            Bool.eq_false_iff.mpr hov
          apply ih
          · intro m hm'
            rcases List.mem_append.1 hm' with h1 | h2
            · exact hacc m h1
            · simp only [List.mem_singleton] at h2
              subst h2
              obtain ⟨_, hlow⟩ := matchAt_spec text p.data i hm
              refine ⟨⟨Nat.le_add_right _ _, hin, p, hp, rfl, ?_⟩, ?_⟩
              · simpa using hlow
              · simp
          · rw [List.pairwise_append]
            refine ⟨hpw, List.pairwise_singleton _ _, ?_⟩
            intro a ha b hb
            simp only [List.mem_singleton] at hb
            subst hb
            have hno : ¬((a.mFrom ≤ i ∧ i < a.mTo) ∨
                (a.mFrom < i + p.data.length ∧ i + p.data.length ≤ a.mTo)) := by
              intro hc
              have : overlapsAny acc i (i + p.data.length) = true :=
                (overlapsAny_iff _ _ _).2 ⟨a, ha, hc⟩
              rw [hovf] at this
              exact absurd this (by simp)
            obtain ⟨⟨hmf, _, _⟩, hlen⟩ := hacc a ha
            push_neg at hno
            unfold SpanDisj
            simp only
            omega
      · rw [if_neg hm]
        exact ih _ acc hacc hpw
    · rw [if_neg hin]
      exact ⟨hacc, hpw⟩

/-- Fold invariant over the length-descending phrase list: every phrase
scanned later is no longer than every accepted span. -/
theorem foldScan_inv (text : List Char) (P : List String) :
    ∀ (l : List String) (acc : List PhraseMatch),
      (∀ q ∈ l, q ∈ P) →
      l.Sorted lenDesc →
      (∀ m ∈ acc, MatchOK text P m ∧ ∀ q ∈ l, q.data.length ≤ m.mTo - m.mFrom) →
      acc.Pairwise SpanDisj →
      (∀ m ∈ l.foldl (fun a ph => scanPhrase text ph.data (text.length + 1) 0 a) acc,
         MatchOK text P m) ∧
      (l.foldl (fun a ph => scanPhrase text ph.data (text.length + 1) 0 a) acc).Pairwise
        SpanDisj := by
  intro l
  induction l with
  | nil =>
    intro acc _ _ hacc hpw
    exact ⟨fun m hm => (hacc m hm).1, hpw⟩
  | cons p l' ih =>
    intro acc hmem hsort hacc hpw
    simp only [List.foldl_cons]
    have hPp : p ∈ P := hmem p (List.mem_cons_self _ _)
    have h1 := scanPhrase_inv text P p hPp (text.length + 1) 0 acc
      (fun m hm => ⟨(hacc m hm).1, (hacc m hm).2 p (List.mem_cons_self _ _)⟩) hpw
    apply ih
    · intro q hq
      exact hmem q (List.mem_cons_of_mem _ hq)
    · exact hsort.of_cons
    · intro m hm
      refine ⟨(h1.1 m hm).1, ?_⟩
      intro q hq
      have hql : strLen q ≤ strLen p := List.rel_of_sorted_cons hsort q hq
      have hspan := (h1.1 m hm).2
      have e1 : strLen q = q.data.length := rfl
      have e2 : strLen p = p.data.length := rfl
      omega
    · exact h1.2

/-- C2: for every text and every list of (non-empty) phrases,
`findPhrases` returns spans sorted by ascending start offset, pairwise
disjoint as half-open intervals (no text position is covered by two
returned spans), and the substring covered by each span, lowercased,
equals the lowercased form of some input phrase.  The non-emptiness
hypothesis marks the domain on which the fuel-free JS loop terminates
(an empty phrase makes the JS `exec` loop spin at a matching position);
for non-empty phrases the model is exact. -/
theorem C2_findPhrases_sound (text : String) (phrases : List String)
    (hne : ∀ p ∈ phrases, p ≠ "") :
    (findPhrases text phrases).Sorted fromAsc ∧
    (findPhrases text phrases).Pairwise SpanDisj ∧
    (∀ m ∈ findPhrases text phrases,
       m.mFrom ≤ m.mTo ∧ m.mTo ≤ strLen text ∧
       ∃ p ∈ phrases,
         lowerChars (sliceChars text.data m.mFrom (m.mTo - m.mFrom)) =
           lowerChars p.data) := by
  have key := foldScan_inv text.data phrases (List.insertionSort lenDesc phrases) []
    (fun q hq => (List.perm_insertionSort lenDesc phrases).subset hq)
    (List.sorted_insertionSort lenDesc phrases)
    (fun m hm => absurd hm (List.not_mem_nil m))
    List.Pairwise.nil
  have hfp : findPhrases text phrases =
      List.insertionSort fromAsc
        ((List.insertionSort lenDesc phrases).foldl
          (fun a ph => scanPhrase text.data ph.data (text.data.length + 1) 0 a) []) := rfl
  have hperm2 := List.perm_insertionSort fromAsc
    ((List.insertionSort lenDesc phrases).foldl
      (fun a ph => scanPhrase text.data ph.data (text.data.length + 1) 0 a) [])
  refine ⟨?_, ?_, ?_⟩
  · rw [hfp]
    exact List.sorted_insertionSort fromAsc _
  · rw [hfp]
    exact (hperm2.pairwise_iff (fun h => Or.symm h)).2 key.2
  · intro m hm
    rw [hfp] at hm
    have hm' := hperm2.subset hm
    obtain ⟨h1, h2, p, hp, _, hlow⟩ := key.1 m hm'
    exact ⟨h1, h2, p, hp, hlow⟩

/-- Witness for C2 at the spec §8 example text and phrase set. -/
theorem C2_witness :
    (findPhrases "I bought a gadget yesterday" ["Widget", "gadget", "Gizmo"]).Sorted
      fromAsc ∧
    (findPhrases "I bought a gadget yesterday" ["Widget", "gadget", "Gizmo"]).Pairwise
      SpanDisj ∧
    (∀ m ∈ findPhrases "I bought a gadget yesterday" ["Widget", "gadget", "Gizmo"],
       m.mFrom ≤ m.mTo ∧ m.mTo ≤ strLen "I bought a gadget yesterday" ∧
       ∃ p ∈ ["Widget", "gadget", "Gizmo"],
         lowerChars (sliceChars ("I bought a gadget yesterday").data m.mFrom
           (m.mTo - m.mFrom)) = lowerChars p.data) :=
  C2_findPhrases_sound "I bought a gadget yesterday" ["Widget", "gadget", "Gizmo"]
    (by decide)

/-! ### Association-list lemmas for the cache proofs -/

theorem mapGet_map_update {α : Type} (m : List (String × List α)) (k : String) (v : α) :
    mapGet (m.map (fun e => if e.1 = k then (e.1, e.2 ++ [v]) else e)) k =
      (mapGet m k).map (fun l => l ++ [v]) := by
  induction m with
  | nil => rfl
  | cons e m ih =>
    by_cases h : e.1 = k
    · simp [mapGet, h]
    · simp [mapGet, h, ih]

theorem mapGet_map_update_ne {α : Type} (m : List (String × List α)) (k k' : String)
    (v : α) (hne : k' ≠ k) :
    mapGet (m.map (fun e => if e.1 = k then (e.1, e.2 ++ [v]) else e)) k' =
      mapGet m k' := by
  induction m with
  | nil => rfl
  | cons e m ih =>
    by_cases h : e.1 = k
    · have h2 : ¬ e.1 = k' := by rw [h]; exact fun hc => hne hc.symm
      simp [mapGet, h, h2, Ne.symm hne, ih]
    · by_cases h2 : e.1 = k' <;> simp [mapGet, h, h2, hne, Ne.symm hne, ih]

theorem mapGet_append_self {α : Type} (m : List (String × α)) (k : String) (v : α)
    (h : mapGet m k = none) :
    mapGet (m ++ [(k, v)]) k = some v := by
  induction m with
  | nil => simp [mapGet]
  | cons e m ih =>
    by_cases he : e.1 = k
    · simp [mapGet, he] at h
    · rw [mapGet, if_neg he] at h
      rw [List.cons_append, mapGet, if_neg he]
      exact ih h

theorem mapGet_append_ne {α : Type} (m : List (String × α)) (k k' : String) (v : α)
    (h : k' ≠ k) :
    mapGet (m ++ [(k, v)]) k' = mapGet m k' := by
  induction m with
  | nil => simp [mapGet, Ne.symm h]
  | cons e m ih =>
    by_cases he : e.1 = k'
    · simp [mapGet, he]
    · rw [List.cons_append, mapGet, if_neg he, mapGet, if_neg he]
      exact ih

theorem mapGet_mapPush_self {α : Type} (m : List (String × List α)) (k : String)
    (v : α) :
    mapGet (mapPush m k v) k = some (((mapGet m k).getD []) ++ [v]) := by
  unfold mapPush
  cases h : mapGet m k with
  | some l =>
    rw [if_pos (by simp [h])]
    rw [mapGet_map_update, h]
    rfl
  | none =>
    rw [if_neg (by simp [h]), mapGet_append_self m k [v] h]
    simp

theorem mapGet_mapPush_ne {α : Type} (m : List (String × List α)) (k k' : String)
    (v : α) (hne : k' ≠ k) :
    mapGet (mapPush m k v) k' = mapGet m k' := by
  unfold mapPush
  by_cases h : (mapGet m k).isSome
  · rw [if_pos h, mapGet_map_update_ne m k k' v hne]
  · rw [if_neg h, mapGet_append_ne m k k' [v] hne]

theorem mapGet_mapPush_mono {α : Type} (m : List (String × List α)) (k k' : String)
    (v : α) (l : List α) (x : α) (h : mapGet m k' = some l) (hx : x ∈ l) :
    ∃ l', mapGet (mapPush m k v) k' = some l' ∧ x ∈ l' := by
  by_cases he : k' = k
  · subst he
    refine ⟨_, mapGet_mapPush_self m k' v, ?_⟩
    rw [h]
    exact List.mem_append_left _ hx
  · exact ⟨l, by rw [mapGet_mapPush_ne m k k' v he]; exact h, hx⟩

theorem foldlPush_mem_mono (d : Definition) (ks : List String) :
    ∀ (m : List (String × List Definition)) (k : String) (l : List Definition)
      (x : Definition),
      mapGet m k = some l → x ∈ l →
      ∃ l', mapGet (ks.foldl (fun m' s => mapPush m' (jsToLower s) d) m) k = some l' ∧
        x ∈ l' := by
  induction ks with
  | nil => intro m k l x h hx; exact ⟨l, h, hx⟩
  | cons s ks ih =>
    intro m k l x h hx
    simp only [List.foldl_cons]
    obtain ⟨l1, h1, hx1⟩ := mapGet_mapPush_mono m (jsToLower s) k d l x h hx
    exact ih _ k l1 x h1 hx1

theorem foldlPush_mem_self (d : Definition) (ks : List String) :
    ∀ (m : List (String × List Definition)) (a : String), a ∈ ks →
      ∃ l', mapGet (ks.foldl (fun m' s => mapPush m' (jsToLower s) d) m)
        (jsToLower a) = some l' ∧ d ∈ l' := by
  induction ks with
  | nil => intro m a ha; exact absurd ha (List.not_mem_nil a)
  | cons s ks ih =>
    intro m a ha
    simp only [List.foldl_cons]
    rcases List.mem_cons.1 ha with rfl | ha'
    · have h1 := mapGet_mapPush_self m (jsToLower a) d
      have hd : d ∈ ((mapGet m (jsToLower a)).getD []) ++ [d] :=
        List.mem_append_right _ (List.mem_singleton_self d)
      exact foldlPush_mem_mono d ks _ _ _ d h1 hd
    · exact ih _ a ha'

theorem addToCache_definitions (c : DefinitionCache) (d : Definition) :
    (addToCache c d).definitions =
      d.aliases.foldl (fun m a => mapPush m (jsToLower a) d)
        (mapPush c.definitions (jsToLower d.phrase) d) := rfl

/-- A freshly added definition is retrievable under its lowercased
phrase key. -/
theorem getDefinitions_addToCache_phrase (c : DefinitionCache) (d : Definition) :
    d ∈ getDefinitions (addToCache c d) d.phrase none := by
  have h0 := mapGet_mapPush_self c.definitions (jsToLower d.phrase) d
  have hd : d ∈ ((mapGet c.definitions (jsToLower d.phrase)).getD []) ++ [d] :=
    List.mem_append_right _ (List.mem_singleton_self d)
  obtain ⟨l', hl', hdl'⟩ := foldlPush_mem_mono d d.aliases _ _ _ d h0 hd
  unfold getDefinitions
  rw [addToCache_definitions c d, hl']
  have hne : l' ≠ [] := fun hc => absurd (hc ▸ hdl') (List.not_mem_nil d)
  simpa [hne] using hdl'

/-- A freshly added definition is retrievable under each of its
lowercased alias keys. -/
theorem getDefinitions_addToCache_alias (c : DefinitionCache) (d : Definition)
    (a : String) (ha : a ∈ d.aliases) :
    d ∈ getDefinitions (addToCache c d) a none := by
  obtain ⟨l', hl', hdl'⟩ := foldlPush_mem_self d d.aliases
    (mapPush c.definitions (jsToLower d.phrase) d) a ha
  unfold getDefinitions
  rw [addToCache_definitions c d, hl']
  have hne : l' ≠ [] := fun hc => absurd (hc ▸ hdl') (List.not_mem_nil d)
  simpa [hne] using hdl'

/-- One `getAllDefinitions` step preserves the de-duplication
invariant: emitted definitions have pairwise-distinct dedup keys, all
recorded as seen. -/
theorem getAllStep_inv (cf : Option (List String)) (st : List Definition × List String)
    (d : Definition)
    (h1 : (st.1.map dedupKey).Nodup) (h2 : ∀ x ∈ st.1, dedupKey x ∈ st.2) :
    ((getAllStep cf st d).1.map dedupKey).Nodup ∧
    (∀ x ∈ (getAllStep cf st d).1, dedupKey x ∈ (getAllStep cf st d).2) := by
  unfold getAllStep
  by_cases hseen : st.2.contains (dedupKey d) = true
  · rw [if_pos hseen]
    exact ⟨h1, h2⟩
  · rw [if_neg hseen]
    have hnotin : dedupKey d ∉ st.2 := by simpa using hseen
    dsimp only
    split
    · constructor
      · rw [List.map_append, List.nodup_append]
        refine ⟨h1, List.nodup_singleton _, ?_⟩
        intro a ha hb
        simp only [List.map_cons, List.map_nil, List.mem_singleton] at hb
        subst hb
        obtain ⟨x, hx, hxk⟩ := List.mem_map.1 ha
        exact hnotin (hxk ▸ h2 x hx)
      · intro x hx
        rcases List.mem_append.1 hx with hx1 | hx2
        · exact List.mem_append_left _ (h2 x hx1)
        · simp only [List.mem_singleton] at hx2
          subst hx2
          exact List.mem_append_right _ (List.mem_singleton_self _)
    · refine ⟨h1, ?_⟩
      intro x hx
      exact List.mem_append_left _ (h2 x hx)

theorem foldl_getAllStep_inv (cf : Option (List String)) (l : List Definition) :
    ∀ st : List Definition × List String,
      (st.1.map dedupKey).Nodup → (∀ x ∈ st.1, dedupKey x ∈ st.2) →
      (((l.foldl (getAllStep cf) st).1.map dedupKey).Nodup ∧
       ∀ x ∈ (l.foldl (getAllStep cf) st).1,
         dedupKey x ∈ (l.foldl (getAllStep cf) st).2) := by
  induction l with
  | nil => intro st h1 h2; exact ⟨h1, h2⟩
  | cons d l ih =>
    intro st h1 h2
    simp only [List.foldl_cons]
    obtain ⟨h1', h2'⟩ := getAllStep_inv cf st d h1 h2
    exact ih _ h1' h2'

theorem foldl2_getAllStep_inv (cf : Option (List String))
    (entries : List (String × List Definition)) :
    ∀ st : List Definition × List String,
      (st.1.map dedupKey).Nodup → (∀ x ∈ st.1, dedupKey x ∈ st.2) →
      (((entries.foldl
          (fun (st : List Definition × List String) (e : String × List Definition) =>
            e.2.foldl (getAllStep cf) st) st).1.map dedupKey).Nodup ∧
       ∀ x ∈ (entries.foldl
          (fun (st : List Definition × List String) (e : String × List Definition) =>
            e.2.foldl (getAllStep cf) st) st).1,
         dedupKey x ∈
           (entries.foldl
             (fun (st : List Definition × List String) (e : String × List Definition) =>
               e.2.foldl (getAllStep cf) st) st).2) := by
  induction entries with
  | nil => intro st h1 h2; exact ⟨h1, h2⟩
  | cons e entries ih =>
    intro st h1 h2
    simp only [List.foldl_cons]
    obtain ⟨h1', h2'⟩ := foldl_getAllStep_inv cf e.2 st h1 h2
    exact ih _ h1' h2'

/-- The result of `getAllDefinitions` has no duplicate elements. -/
theorem getAllDefinitions_nodup (c : DefinitionCache) (cf : Option (List String)) :
    (getAllDefinitions c cf).Nodup := by
  have h := foldl2_getAllStep_inv cf c.definitions ([], [])
    (by exact List.nodup_nil) (by intro x hx; exact absurd hx (List.not_mem_nil x))
  exact (h.1).of_map

/-- C5 counterexample: two blocks in the same file defining the same
phrase produce two distinct cached definitions sharing the
`(sourceFile, phrase)` dedup key; the second one is cached (returned by
`getDefinitions`) yet appears zero times — not exactly once — in
`getAllDefinitions`. -/
theorem C5_counterexample :
    exDup2 ∈ getDefinitions exDupCache "Foo" none ∧
    (getAllDefinitions exDupCache none).count exDup2 = 0 := by
  decide

/-- C5 amended: every added definition is retrievable under its
lowercased phrase and under each lowercased alias; a definition appears
at most once in `getAllDefinitions` (exactly once when no other stored
definition shares its `(sourceFile, phrase)` dedup key); in particular
the single `CPU` definition with alias `Central Processing Unit` is
retrievable under both keys (case-insensitively) and appears exactly
once in `getAllDefinitions`. -/
theorem C5_alias_fanout_dedup :
    (∀ c d, d ∈ getDefinitions (addToCache c d) d.phrase none ∧
        ∀ a ∈ d.aliases, d ∈ getDefinitions (addToCache c d) a none) ∧
    (∀ c cf d, (getAllDefinitions c cf).count d ≤ 1) ∧
    (getDefinition exCpuCache "CPU" none = some exCpuDef ∧
     getDefinition exCpuCache "Central Processing Unit" none = some exCpuDef ∧
     getDefinition exCpuCache "central processing unit" none = some exCpuDef ∧
     getAllDefinitions exCpuCache none = [exCpuDef]) := by
  refine ⟨?_, ?_, by decide⟩
  · intro c d
    exact ⟨getDefinitions_addToCache_phrase c d,
      fun a ha => getDefinitions_addToCache_alias c d a ha⟩
  · intro c cf d
    exact List.nodup_iff_count_le_one.1 (getAllDefinitions_nodup c cf) d

/-- Witness for C5: the CPU definition is retrievable under its alias
key after insertion. -/
theorem C5_witness :
    exCpuDef ∈ getDefinitions (addToCache emptyCache exCpuDef)
      "Central Processing Unit" none :=
  (C5_alias_fanout_dedup.1 emptyCache exCpuDef).2 "Central Processing Unit"
    (by decide)

theorem mapGet_eq_none_iff {α : Type} (m : List (String × α)) (k : String) :
    mapGet m k = none ↔ k ∉ m.map Prod.fst := by
  induction m with
  | nil => simp [mapGet]
  | cons e m ih =>
    by_cases h : e.1 = k
    · simp [mapGet, h]
    · simp [mapGet, h, ih, Ne.symm h]

theorem mapGet_filterKey_ne {α : Type} (m : List (String × α)) (k p : String)
    (h : k ≠ p) :
    mapGet (m.filter (fun e => e.1 ≠ p)) k = mapGet m k := by
  induction m with
  | nil => rfl
  | cons e m ih =>
    by_cases he : e.1 = p
    · have h2 : ¬ e.1 = k := by rw [he]; exact fun hc => h hc.symm
      rw [List.filter_cons_of_neg (by simp [he]), ih, mapGet, if_neg h2]
    · rw [List.filter_cons_of_pos (by simp [he]), mapGet, mapGet]
      by_cases hk : e.1 = k
      · rw [if_pos hk, if_pos hk]
      · rw [if_neg hk, if_neg hk]
        exact ih

theorem mapGet_filterKey_self {α : Type} (m : List (String × α)) (p : String) :
    mapGet (m.filter (fun e => e.1 ≠ p)) p = none := by
  induction m with
  | nil => rfl
  | cons e m ih =>
    by_cases he : e.1 = p
    · rw [List.filter_cons_of_neg (by simp [he])]
      exact ih
    · rw [List.filter_cons_of_pos (by simp [he]), mapGet, if_neg he]
      exact ih

/-- The key-list of an entry-wise value transformation. -/
theorem keys_map_values {α β : Type} (m : List (String × α)) (f : String × α → β) :
    (m.map (fun e => (e.1, f e))).map Prod.fst = m.map Prod.fst := by
  induction m with
  | nil => rfl
  | cons e m ih => simp [ih]

theorem keys_map_update {α : Type} (m : List (String × List α)) (k : String) (v : α) :
    (m.map (fun e => if e.1 = k then (e.1, e.2 ++ [v]) else e)).map Prod.fst =
      m.map Prod.fst := by
  induction m with
  | nil => rfl
  | cons e m ih => by_cases h : e.1 = k <;> simp [h, ih]

theorem mapGet_transform_not_mem {α : Type} (m : List (String × List α))
    (gb : α → Bool) (k : String) (h : k ∉ m.map Prod.fst) :
    mapGet ((m.map (fun e => (e.1, e.2.filter gb))).filter (fun e => ¬ e.2.isEmpty))
      k = none := by
  induction m with
  | nil => rfl
  | cons e m ih =>
    simp only [List.map_cons, List.mem_cons] at h
    push_neg at h
    simp only [List.map_cons]
    by_cases hf : (e.2.filter gb).isEmpty = true
    · rw [List.filter_cons_of_neg (by simp [hf])]
      exact ih h.2
    · rw [List.filter_cons_of_pos (by simp [hf])]
      rw [mapGet, if_neg (fun hc => h.1 hc.symm)]
      exact ih h.2

/-- Characterization of the remove-then-prune transformation of the
key map, under distinct keys: each stored list is filtered, and keys
whose lists became empty disappear. -/
theorem mapGet_prune {α : Type} (m : List (String × List α)) (gb : α → Bool)
    (k : String) (hnd : (m.map Prod.fst).Nodup) :
    mapGet ((m.map (fun e => (e.1, e.2.filter gb))).filter (fun e => ¬ e.2.isEmpty))
      k =
      (match mapGet m k with
       | none => none
       | some l => if (l.filter gb).isEmpty then none else some (l.filter gb)) := by
  induction m with
  | nil => rfl
  | cons e m ih =>
    simp only [List.map_cons, List.nodup_cons] at hnd
    simp only [List.map_cons]
    conv_rhs => rw [mapGet]
    by_cases hk : e.1 = k
    · rw [if_pos hk]
      by_cases hf : (e.2.filter gb).isEmpty = true
      · rw [List.filter_cons_of_neg (by simp [hf])]
        rw [mapGet_transform_not_mem m gb k (hk ▸ hnd.1)]
        simp [hf]
      · rw [List.filter_cons_of_pos (by simp [hf])]
        rw [mapGet, if_pos hk]
        simp [hf]
    · rw [if_neg hk]
      by_cases hf : (e.2.filter gb).isEmpty = true
      · rw [List.filter_cons_of_neg (by simp [hf])]
        exact ih hnd.2
      · rw [List.filter_cons_of_pos (by simp [hf])]
        rw [mapGet, if_neg hk]
        exact ih hnd.2

theorem mapPush_entries_ne_nil {α : Type} (m : List (String × List α)) (k : String)
    (v : α) (h : ∀ e ∈ m, e.2 ≠ []) : ∀ e ∈ mapPush m k v, e.2 ≠ [] := by
  intro e' he'
  unfold mapPush at he'
  split at he'
  · obtain ⟨e, he, hee⟩ := List.mem_map.1 he'
    by_cases hk : e.1 = k
    · rw [if_pos hk] at hee
      subst hee
      simp
    · rw [if_neg hk] at hee
      subst hee
      exact h e he
  · rcases List.mem_append.1 he' with h1 | h2
    · exact h e' h1
    · simp only [List.mem_singleton] at h2
      subst h2
      simp

theorem foldlPush_entries_ne_nil (d : Definition) (ks : List String) :
    ∀ m, (∀ e ∈ m, e.2 ≠ []) →
      ∀ e ∈ ks.foldl (fun m' s => mapPush m' (jsToLower s) d) m, e.2 ≠ [] := by
  induction ks with
  | nil => intro m h; exact h
  | cons s ks ih =>
    intro m h
    simp only [List.foldl_cons]
    exact ih _ (mapPush_entries_ne_nil m (jsToLower s) d h)

theorem mapPush_value_mem {α : Type} (m : List (String × List α)) (k : String)
    (v : α) (e' : String × List α) (he : e' ∈ mapPush m k v) (x : α)
    (hx : x ∈ e'.2) : (∃ e ∈ m, x ∈ e.2) ∨ x = v := by
  unfold mapPush at he
  split at he
  · obtain ⟨e, hem, hee⟩ := List.mem_map.1 he
    by_cases hk : e.1 = k
    · rw [if_pos hk] at hee
      subst hee
      rcases List.mem_append.1 hx with h1 | h2
      · exact Or.inl ⟨e, hem, h1⟩
      · simp only [List.mem_singleton] at h2
        exact Or.inr h2
    · rw [if_neg hk] at hee
      subst hee
      exact Or.inl ⟨e, hem, hx⟩
  · rcases List.mem_append.1 he with h1 | h2
    · exact Or.inl ⟨e', h1, hx⟩
    · simp only [List.mem_singleton] at h2
      subst h2
      simp only [List.mem_singleton] at hx
      exact Or.inr hx

theorem foldlPush_value_mem (d : Definition) (ks : List String) :
    ∀ m (e' : String × List Definition),
      e' ∈ ks.foldl (fun m' s => mapPush m' (jsToLower s) d) m →
      ∀ x ∈ e'.2, (∃ e ∈ m, x ∈ e.2) ∨ x = d := by
  induction ks with
  | nil => intro m e' he x hx; exact Or.inl ⟨e', he, hx⟩
  | cons s ks ih =>
    intro m e' he x hx
    simp only [List.foldl_cons] at he
    rcases ih _ e' he x hx with ⟨e, hem, hxe⟩ | h2
    · exact mapPush_value_mem m (jsToLower s) d e hem x hxe
    · exact Or.inr h2

theorem mapPush_keys_nodup {α : Type} (m : List (String × List α)) (k : String)
    (v : α) (h : (m.map Prod.fst).Nodup) :
    ((mapPush m k v).map Prod.fst).Nodup := by
  unfold mapPush
  split
  · rwa [keys_map_update]
  · rename_i habs
    rw [List.map_append, List.nodup_append]
    refine ⟨h, List.nodup_singleton _, ?_⟩
    intro a ha hb
    simp only [List.map_cons, List.map_nil, List.mem_singleton] at hb
    subst hb
    have : mapGet m a = none := by
      rcases ho : mapGet m a with _ | l
      · rfl
      · rw [ho] at habs
        simp at habs
    exact (mapGet_eq_none_iff m a).1 this ha

theorem foldlPush_keys_nodup (d : Definition) (ks : List String) :
    ∀ m, (m.map Prod.fst).Nodup →
      ((ks.foldl (fun m' s => mapPush m' (jsToLower s) d) m).map Prod.fst).Nodup := by
  induction ks with
  | nil => intro m h; exact h
  | cons s ks ih =>
    intro m h
    simp only [List.foldl_cons]
    exact ih _ (mapPush_keys_nodup m (jsToLower s) d h)

theorem mapGet_mapPush_isSome {α : Type} (m : List (String × List α)) (k k' : String)
    (v : α) (h : (mapGet m k').isSome = true) :
    (mapGet (mapPush m k v) k').isSome = true := by
  by_cases he : k' = k
  · subst he
    rw [mapGet_mapPush_self]
    rfl
  · rw [mapGet_mapPush_ne m k k' v he]
    exact h

theorem foldlPush_isSome (d : Definition) (ks : List String) :
    ∀ m (k' : String), (mapGet m k').isSome = true →
      (mapGet (ks.foldl (fun m' s => mapPush m' (jsToLower s) d) m) k').isSome =
        true := by
  induction ks with
  | nil => intro m k' h; exact h
  | cons s ks ih =>
    intro m k' h
    simp only [List.foldl_cons]
    exact ih _ k' (mapGet_mapPush_isSome m (jsToLower s) k' d h)

theorem mapPush_mem_cases {α : Type} (m : List (String × List α)) (k : String)
    (v : α) (e' : String × List α) (he : e' ∈ mapPush m k v) :
    (e' ∈ m ∧ e'.1 ≠ k) ∨ (∃ e ∈ m, e.1 = k ∧ e' = (k, e.2 ++ [v])) ∨
      e' = (k, [v]) := by
  unfold mapPush at he
  split at he
  · obtain ⟨e, hem, hee⟩ := List.mem_map.1 he
    by_cases hk : e.1 = k
    · rw [if_pos hk] at hee
      refine Or.inr (Or.inl ⟨e, hem, hk, ?_⟩)
      rw [← hee, hk]
    · rw [if_neg hk] at hee
      subst hee
      exact Or.inl ⟨hem, hk⟩
  · rename_i habs
    rcases List.mem_append.1 he with h1 | h2
    · refine Or.inl ⟨h1, ?_⟩
      intro hc
      have hnone : mapGet m k = none := by
        rcases ho : mapGet m k with _ | l
        · rfl
        · rw [ho] at habs
          simp at habs
      exact (mapGet_eq_none_iff m k).1 hnone (hc ▸ List.mem_map_of_mem Prod.fst h1)
    · simp only [List.mem_singleton] at h2
      exact Or.inr (Or.inr h2)

theorem removeFromCache_of_none (c : DefinitionCache) (p : String)
    (h : mapGet c.fileIndex p = none) : removeFromCache c p = c := by
  unfold removeFromCache
  rw [h]

theorem removeFromCache_of_some (c : DefinitionCache) (p : String) (ps : List String)
    (h : mapGet c.fileIndex p = some ps) :
    removeFromCache c p =
      ⟨(c.definitions.map
          (fun e => (e.1, e.2.filter (fun d => d.sourceFile ≠ p)))).filter
            (fun e => ¬ e.2.isEmpty),
        c.fileIndex.filter (fun e => e.1 ≠ p)⟩ := by
  unfold removeFromCache
  rw [h]

theorem cacheInv_empty : CacheInv emptyCache := by
  refine ⟨?_, ?_, ?_, ?_, ?_⟩ <;> simp [emptyCache]

theorem cacheInv_add (c : DefinitionCache) (d : Definition) (h : CacheInv c) :
    CacheInv (addToCache c d) := by
  unfold CacheInv at h ⊢
  obtain ⟨hA, hB, hC, hD, hE⟩ := h
  have hdefs : (addToCache c d).definitions =
      d.aliases.foldl (fun m a => mapPush m (jsToLower a) d)
        (mapPush c.definitions (jsToLower d.phrase) d) := rfl
  have hfi : (addToCache c d).fileIndex =
      mapPush c.fileIndex d.sourceFile d.phrase := rfl
  have htrans : ∀ (key : String) (l : List Definition) (d' : Definition),
      mapGet c.definitions key = some l → d' ∈ l →
      ∃ l', mapGet (d.aliases.foldl (fun m a => mapPush m (jsToLower a) d)
        (mapPush c.definitions (jsToLower d.phrase) d)) key = some l' ∧ d' ∈ l' := by
    intro key l d' hl hd'
    obtain ⟨l1, hl1, hd1⟩ :=
      mapGet_mapPush_mono c.definitions (jsToLower d.phrase) key d l d' hl hd'
    exact foldlPush_mem_mono d d.aliases _ key l1 d' hl1 hd1
  have hnew : ∃ l', mapGet (d.aliases.foldl (fun m a => mapPush m (jsToLower a) d)
      (mapPush c.definitions (jsToLower d.phrase) d)) (jsToLower d.phrase) =
        some l' ∧ d ∈ l' := by
    have h0 := mapGet_mapPush_self c.definitions (jsToLower d.phrase) d
    exact foldlPush_mem_mono d d.aliases _ _ _ d h0
      (List.mem_append_right _ (List.mem_singleton_self d))
  refine ⟨?_, ?_, ?_, ?_, ?_⟩
  · rw [hdefs]
    exact foldlPush_entries_ne_nil d d.aliases _
      (mapPush_entries_ne_nil c.definitions _ d hA)
  · rw [hdefs, hfi]
    intro e he x hx
    rcases foldlPush_value_mem d d.aliases _ e he x hx with ⟨e0, he0, hx0⟩ | rfl
    · rcases mapPush_value_mem c.definitions _ d e0 he0 x hx0 with ⟨e1, he1, hx1⟩ | rfl
      · exact mapGet_mapPush_isSome c.fileIndex d.sourceFile x.sourceFile d.phrase
          (hB e1 he1 x hx1)
      · rw [mapGet_mapPush_self]
        rfl
    · rw [mapGet_mapPush_self]
      rfl
  · rw [hdefs, hfi]
    intro f hf q hq
    rcases mapPush_mem_cases c.fileIndex d.sourceFile d.phrase f hf with
      ⟨hfm, _⟩ | ⟨e, hem, hek, rfl⟩ | rfl
    · obtain ⟨l, hl, d', hd', hp, hs⟩ := hC f hfm q hq
      obtain ⟨l', hl', hd''⟩ := htrans _ l d' hl hd'
      exact ⟨l', hl', d', hd'', hp, hs⟩
    · rcases List.mem_append.1 hq with hq1 | hq2
      · obtain ⟨l, hl, d', hd', hp, hs⟩ := hC e hem q hq1
        obtain ⟨l', hl', hd''⟩ := htrans _ l d' hl hd'
        refine ⟨l', hl', d', hd'', hp, ?_⟩
        rw [hs, hek]
      · simp only [List.mem_singleton] at hq2
        subst hq2
        obtain ⟨l', hl', hd''⟩ := hnew
        exact ⟨l', hl', d, hd'', rfl, rfl⟩
    · simp only [List.mem_singleton] at hq
      subst hq
      obtain ⟨l', hl', hd''⟩ := hnew
      exact ⟨l', hl', d, hd'', rfl, rfl⟩
  · rw [hdefs]
    exact foldlPush_keys_nodup d d.aliases _
      (mapPush_keys_nodup c.definitions _ d hD)
  · rw [hfi]
    exact mapPush_keys_nodup c.fileIndex _ _ hE

theorem cacheInv_remove (c : DefinitionCache) (p : String) (h : CacheInv c) :
    CacheInv (removeFromCache c p) := by
  unfold CacheInv at h ⊢
  obtain ⟨hA, hB, hC, hD, hE⟩ := h
  cases hfi : mapGet c.fileIndex p with
  | none =>
    rw [removeFromCache_of_none c p hfi]
    exact ⟨hA, hB, hC, hD, hE⟩
  | some ps =>
    rw [removeFromCache_of_some c p ps hfi]
    refine ⟨?_, ?_, ?_, ?_, ?_⟩
    · intro e he
      have h2 := (List.mem_filter.1 he).2
      simp only [decide_eq_true_eq] at h2
      intro hc
      exact h2 (by simp [hc])
    · intro e he x hx
      obtain ⟨hef, _⟩ := List.mem_filter.1 he
      obtain ⟨e0, he0, rfl⟩ := List.mem_map.1 hef
      obtain ⟨hx0, hxs⟩ := List.mem_filter.1 hx
      have hxs' : x.sourceFile ≠ p := by simpa using hxs
      rw [mapGet_filterKey_ne c.fileIndex x.sourceFile p hxs']
      exact hB e0 he0 x hx0
    · intro f hf q hq
      obtain ⟨hfm, hfp⟩ := List.mem_filter.1 hf
      have hfp' : f.1 ≠ p := by simpa using hfp
      obtain ⟨l, hl, d', hd', hphr, hsrc⟩ := hC f hfm q hq
      rw [mapGet_prune c.definitions (fun d => d.sourceFile ≠ p) (jsToLower q) hD,
        hl]
      have hd2 : d' ∈ l.filter (fun d => d.sourceFile ≠ p) :=
        List.mem_filter.2 ⟨hd', by simp [hsrc, hfp']⟩
      have hne : (l.filter (fun d => d.sourceFile ≠ p)).isEmpty = false := by
        rw [List.isEmpty_eq_false]
        exact List.ne_nil_of_mem hd2
      dsimp only
      rw [if_neg (by rw [hne]; exact Bool.false_ne_true)]
      exact ⟨_, rfl, d', hd2, hphr, hsrc⟩
    · have hsub : (((c.definitions.map
          (fun e => (e.1, e.2.filter (fun d => d.sourceFile ≠ p)))).filter
            (fun e => ¬ e.2.isEmpty)).map Prod.fst).Sublist
          ((c.definitions.map
            (fun e => (e.1, e.2.filter (fun d => d.sourceFile ≠ p)))).map
              Prod.fst) :=
        (List.filter_sublist _).map Prod.fst
      rw [keys_map_values] at hsub
      exact hsub.nodup hD
    · have hsub : ((c.fileIndex.filter (fun e => e.1 ≠ p)).map Prod.fst).Sublist
          (c.fileIndex.map Prod.fst) := (List.filter_sublist _).map Prod.fst
      exact hsub.nodup hE

theorem runOps_inv (ops : List CacheOp) : CacheInv (runOps ops) := by
  suffices h : ∀ c, CacheInv c → CacheInv (ops.foldl applyOp c) from
    h emptyCache cacheInv_empty
  induction ops with
  | nil => intro c h; exact h
  | cons op ops ih =>
    intro c h
    simp only [List.foldl_cons]
    apply ih
    cases op with
    | add d => exact cacheInv_add c d h
    | remove p => exact cacheInv_remove c p h

/-- C1: in every cache state reachable by `addToCache` /
`removeFromCache` operations from the empty cache, after
`removeFromCache p` (i) no key of the definitions map stores a
definition whose `sourceFile` is `p`, (ii) no key stores an empty list
(keys whose lists became empty are deleted), (iii) the file-index entry
for `p` is gone, and (iv) every phrase recorded in the file index still
reaches, under its lowercased form, a stored definition with that
phrase and that file. -/
theorem C1_file_eviction : ∀ (ops : List CacheOp) (p : String),
    (∀ e ∈ (removeFromCache (runOps ops) p).definitions, ∀ d ∈ e.2,
       d.sourceFile ≠ p) ∧
    (∀ e ∈ (removeFromCache (runOps ops) p).definitions, e.2 ≠ []) ∧
    mapGet (removeFromCache (runOps ops) p).fileIndex p = none ∧
    (∀ f ∈ (removeFromCache (runOps ops) p).fileIndex, ∀ q ∈ f.2,
       ∃ l, mapGet (removeFromCache (runOps ops) p).definitions (jsToLower q) =
         some l ∧ ∃ d ∈ l, d.phrase = q ∧ d.sourceFile = f.1) := by
  intro ops p
  have hinv := runOps_inv ops
  have hinv' := cacheInv_remove (runOps ops) p hinv
  unfold CacheInv at hinv hinv'
  obtain ⟨hA, hB, hC, hD, hE⟩ := hinv
  obtain ⟨hA', hB', hC', _, _⟩ := hinv'
  refine ⟨?_, hA', ?_, hC'⟩
  · cases hfi : mapGet (runOps ops).fileIndex p with
    | none =>
      rw [removeFromCache_of_none _ p hfi]
      intro e he d hd hc
      have hsome := hB e he d hd
      rw [hc, hfi] at hsome
      exact absurd hsome (by simp)
    | some ps =>
      rw [removeFromCache_of_some _ p ps hfi]
      intro e he d hd
      obtain ⟨hef, _⟩ := List.mem_filter.1 he
      obtain ⟨e0, he0, rfl⟩ := List.mem_map.1 hef
      have hgb := (List.mem_filter.1 hd).2
      simpa using hgb
  · cases hfi : mapGet (runOps ops).fileIndex p with
    | none =>
      rw [removeFromCache_of_none _ p hfi]
      exact hfi
    | some ps =>
      rw [removeFromCache_of_some _ p ps hfi]
      exact mapGet_filterKey_self _ p

/-- Witness for C1 at a concrete one-operation history. -/
theorem C1_witness :
    mapGet (removeFromCache (runOps [CacheOp.add exDup1]) "f.md").fileIndex
      "f.md" = none :=
  (C1_file_eviction [CacheOp.add exDup1] "f.md").2.2.1

/-- A block accepted by `parseBlock` has a non-empty phrase, the given
source file, consolidated type, and the 1-indexed header line number. -/
theorem parseBlock_some (dp : DividerPattern) (lines : List String) (i : Nat)
    (fp : String) (d : Definition)
    (h : (parseBlock dp lines i fp).1 = some d) :
    d.phrase ≠ "" ∧ d.sourceFile = fp ∧ d.sourceType = SourceType.consolidated ∧
    d.lineNumber = some (i + 1) := by
  unfold parseBlock at h
  dsimp only at h
  split at h
  · exact absurd h (by simp)
  · rename_i hp
    rw [Option.some.injEq] at h
    subst h
    exact ⟨hp, rfl, rfl, rfl⟩

/-- Every definition produced by the parse loop is well formed; blocks
are only opened at indices inside the line list. -/
theorem parseLoop_wf (dp : DividerPattern) (lines : List String) (fp : String) :
    ∀ (fuel i : Nat), ∀ d ∈ parseLoop dp lines fp fuel i,
      defWellFormed fp lines.length d = true := by
  intro fuel
  induction fuel with
  | zero => intro i d hd; simp [parseLoop] at hd
  | succ n ih =>
    intro i d hd
    unfold parseLoop at hd
    by_cases hi : i < lines.length
    · rw [if_pos hi] at hd
      dsimp only at hd
      split at hd
      · rcases List.mem_append.1 hd with hl | hr
        · cases hpb : (parseBlock dp lines i fp).1 with
          | none => rw [hpb] at hl; simp at hl
          | some d' =>
            rw [hpb] at hl
            simp only [List.mem_singleton] at hl
            subst hl
            obtain ⟨hne, hsf, hst, hln⟩ := parseBlock_some dp lines i fp d hpb
            simp [defWellFormed, hne, hsf, hst, hln]
            omega
        · exact ih _ d hr
      · exact ih _ d hd
    · rw [if_neg hi] at hd
      simp at hd

/-- C8: for every input string (however malformed) and file path, the
consolidated parser is a total function returning a plain list of
definitions — the model needs no partiality, no exception and no
out-of-bounds access (every line read in the source is guarded by an
index check, mirrored here by total `getD` access) — and every returned
definition is well formed: non-empty phrase, the given source file,
consolidated type, and a 1-indexed header line number within the file.
A malformed block contributes no definition (empty-phrase headers are
skipped) while the remaining blocks still parse. -/
theorem C8_parse_total_safe :
    ∀ (dp : DividerPattern) (content filePath : String),
      (parseConsolidated dp content filePath).all
        (defWellFormed filePath (splitOnChar '\n' content).length) = true := by
  intro dp content filePath
  rw [List.all_eq_true]
  intro d hd
  exact parseLoop_wf dp (splitOnChar '\n' content) filePath
    ((splitOnChar '\n' content).length + 1)
    (skipFrontmatter (splitOnChar '\n' content)) d hd

end NoteDefinitions
